import Mathlib

/-!
Verification of the virtual file-tree manager and the generation-fallback
logic of the Project Nexus front-end.  The definitions below are shallow
embeddings of the TypeScript source: `FileNode` embeds the `FileNode`
interface of `types.ts` (folders always carry their children list, files
their content, as every tree the program builds does), and the tree
operations embed `updateFileByPath`, `findPath`, `findAndSelectFile` and
`findOrCreateFile` from `App.tsx`.  JavaScript's `String.prototype.split("/")`
is embedded as `jsSplit`; mutation of a deep copy in `findOrCreateFile` is
rendered as the equivalent pure rebuilding of the traversed spine.
-/

namespace Nexus

/-- Embeds the `FileNode` record of `types.ts`: a file has a `name` and
`content`, a folder has a `name` and an ordered `children` array. -/
inductive FileNode where
  | file (name : String) (content : String)
  | folder (name : String) (children : List FileNode)
deriving Repr

mutual

def decEqFileNode : (a b : FileNode) → Decidable (a = b)
  | .file n c, .file m d =>
      match String.decEq n m, String.decEq c d with
      | isTrue h1, isTrue h2 => isTrue (by rw [h1, h2])
      | isFalse h1, _ => isFalse (by intro h; injection h; contradiction)
      | _, isFalse h2 => isFalse (by intro h; injection h; contradiction)
  | .file _ _, .folder _ _ => isFalse (by intro h; exact FileNode.noConfusion h)
  | .folder _ _, .file _ _ => isFalse (by intro h; exact FileNode.noConfusion h)
  | .folder n ch, .folder m ds =>
      match String.decEq n m, decEqListFileNode ch ds with
      | isTrue h1, isTrue h2 => isTrue (by rw [h1, h2])
      | isFalse h1, _ => isFalse (by intro h; injection h; contradiction)
      | _, isFalse h2 => isFalse (by intro h; injection h; contradiction)
termination_by a _ => sizeOf a

def decEqListFileNode : (a b : List FileNode) → Decidable (a = b)
  | [], [] => isTrue rfl
  | [], _ :: _ => isFalse (by intro h; cases h)
  | _ :: _, [] => isFalse (by intro h; cases h)
  | a :: as, b :: bs =>
      match decEqFileNode a b, decEqListFileNode as bs with
      | isTrue h1, isTrue h2 => isTrue (by rw [h1, h2])
      | isFalse h1, _ => isFalse (by intro h; injection h; contradiction)
      | _, isFalse h2 => isFalse (by intro h; injection h; contradiction)
termination_by a _ => sizeOf a

end

instance : DecidableEq FileNode := decEqFileNode

/-- The `name` property shared by both node kinds. -/
@[simp] def FileNode.name : FileNode → String
  | .file n _ => n
  | .folder n _ => n

/-- Whether `node.type === "file"`. -/
@[simp] def FileNode.isFile : FileNode → Bool
  | .file _ _ => true
  | .folder _ _ => false

/-- Whether `node.type === "folder"`. -/
@[simp] def FileNode.isFolder : FileNode → Bool
  | .file _ _ => false
  | .folder _ _ => true

/-- The `children` property: `undefined` (`none`) on files, the array on
folders, mirroring the optional `children?` field. -/
@[simp] def FileNode.childrenOpt : FileNode → Option (List FileNode)
  | .file _ _ => none
  | .folder _ ch => some ch

/-- Character-level worker for `jsSplit`: splits a character list at every
`'/'`, keeping empty segments, exactly as JavaScript `split("/")` does. -/
def splitSlashChars : List Char → List (List Char)
  | [] => [[]]
  | c :: cs =>
    match splitSlashChars cs with
    | [] => []
    | h :: t => if c = '/' then [] :: h :: t else (c :: h) :: t

/-- Embeds JavaScript `path.split("/")` (single-character separator, no
regex): `""` yields `[""]`, leading/trailing/doubled slashes yield empty
segments. -/
def jsSplit (s : String) : List String :=
  (splitSlashChars s.data).map (fun l => String.mk l)

/-- The filtered segment list `path.split("/").filter(p => p)` used by
`findAndSelectFile` and `findOrCreateFile` (JavaScript string truthiness
drops exactly the empty segments). -/
def fparts (path : String) : List String :=
  (jsSplit path).filter (fun s => s != "")

/-- Loop body of `findAndSelectFile`: walks the remaining segments over the
current level (`none` when `currentLevel` is `undefined`).  At each segment
the first node matching by name is taken; a file whose segment equals the
path's last segment (`parts[parts.length - 1]`, compared as a string) is
returned; otherwise the walk descends into `node.children`.  Exhausting the
segments without that break returns `null`. -/
def lookupGo (lastSeg : String) : Option (List FileNode) → List String → Option FileNode
  | _, [] => none
  | none, _ :: _ => none
  | some nodes, part :: rest =>
    match nodes.find? (fun n => n.name == part) with
    | none => none
    | some node =>
      if node.isFile && part == lastSeg then some node
      else lookupGo lastSeg node.childrenOpt rest

/-- Embeds `findAndSelectFile` from `App.tsx`: splits the path, filters out
empty segments, and walks with `lookupGo`. -/
def findAndSelectFile (nodes : List FileNode) (path : String) : Option FileNode :=
  let parts := fparts path
  lookupGo (parts.getLastD "") (some nodes) parts

/-- The body of the `map` callback inside `recursiveUpdate`: a name match
that is a file on the final segment gets its content replaced (and is
reported as the found file); a name match that is a folder recurses via
the continuation `k`; everything else is returned unchanged. -/
def updNode (content h : String) (last : Bool)
    (k : List FileNode → List FileNode × Option FileNode) (node : FileNode) :
    FileNode × Option FileNode :=
  if node.name == h then
    match node with
    | .file n c0 =>
      if last then (FileNode.file n content, some (FileNode.file n content))
      else (FileNode.file n c0, none)
    | .folder n ch =>
      let r := k ch
      (FileNode.folder n r.1, r.2)
  else (node, none)

/-- One level of `recursiveUpdate` inside `updateFileByPath`: maps `updNode`
over the current nodes, the found file of a later sibling overriding an
earlier one, as the JavaScript closure assignment does. -/
def updLevel (content h : String) (last : Bool)
    (k : List FileNode → List FileNode × Option FileNode) :
    List FileNode → List FileNode × Option FileNode
  | [] => ([], none)
  | node :: rest =>
    let step := updNode content h last k node
    let r2 := updLevel content h last k rest
    (step.1 :: r2.1, match r2.2 with | some x => some x | none => step.2)

/-- Embeds `recursiveUpdate` from `updateFileByPath`: an empty segment list
returns the nodes unchanged, otherwise one `updLevel` pass per segment. -/
def recursiveUpdate (content : String) : List String → List FileNode → List FileNode × Option FileNode
  | [], nodes => (nodes, none)
  | h :: t, nodes => updLevel content h t.isEmpty (recursiveUpdate content t) nodes

/-- Embeds `updateFileByPath` from `App.tsx`: note the path is split on `/`
without filtering empty segments. -/
def updateFileByPath (nodes : List FileNode) (path : String) (content : String) :
    List FileNode × Option FileNode :=
  recursiveUpdate content (jsSplit path) nodes

/-- Leaf step of `findOrCreateFile`: replace the content of the first file
named `fn`, or append a new file when none exists. -/
def putFile (fn c : String) : List FileNode → List FileNode
  | [] => [.file fn c]
  | .file n c0 :: t => if n == fn then .file n c :: t else .file n c0 :: putFile fn c t
  | .folder n ch :: t => .folder n ch :: putFile fn c t

/-- Folder step of `findOrCreateFile`: descend into the first folder named
`p` (files with that name are skipped), applying the continuation `k` to
its children; when no folder matches, append a fresh folder and continue
inside it. -/
def descendInto (p : String) (k : List FileNode → List FileNode) : List FileNode → List FileNode
  | [] => [.folder p (k [])]
  | .folder n ch :: t =>
    if n == p then .folder n (k ch) :: t else .folder n ch :: descendInto p k t
  | .file n c :: t => .file n c :: descendInto p k t

/-- Walk/create the folder segments then place the file, the pure rendering
of the in-place mutation of the deep copy in `findOrCreateFile`. -/
def createPath (fn c : String) : List String → List FileNode → List FileNode
  | [], nodes => putFile fn c nodes
  | p :: rest, nodes => descendInto p (createPath fn c rest) nodes

/-- Embeds `findOrCreateFile` from `App.tsx`: filtered segments, the last
segment popped as the file name (an empty segment list returns the tree
as-is), folders found or created along the rest. -/
def findOrCreateFile (nodes : List FileNode) (path content : String) : List FileNode :=
  let parts := fparts path
  match parts.getLast? with
  | none => nodes
  | some fn => createPath fn content parts.dropLast nodes

/-- Embeds the `findPath` closure of `handleFileContentChange`: depth-first
search for `target` (JavaScript compares object identity; the value
embedding compares node values), building the slash-joined path as it
descends. -/
def findPath (target : FileNode) : List FileNode → String → Option String
  | [], _ => none
  | node :: rest, cur =>
    let newPath := if cur == "" then node.name else cur ++ "/" ++ node.name
    if node = target then some newPath
    else
      match node with
      | .folder _ ch =>
        match findPath target ch newPath with
        | some r => some r
        | none => findPath target rest cur
      | .file _ _ => findPath target rest cur
termination_by nodes _ => sizeOf nodes

/-- Segment-list counterpart of `findPath`, returning the chain of node
names instead of the joined string. -/
def findPathSegs (target : FileNode) : List FileNode → Option (List String)
  | [] => none
  | node :: rest =>
    if node = target then some [node.name]
    else
      match node with
      | .folder _ ch =>
        match findPathSegs target ch with
        | some r => some (node.name :: r)
        | none => findPathSegs target rest
      | .file _ _ => findPathSegs target rest
termination_by nodes => sizeOf nodes

/-- Embeds `INITIAL_FILE_STRUCTURE` from `constants.tsx`. -/
def INITIAL_FILE_STRUCTURE : List FileNode :=
  [ .folder "src"
      [ .folder "components" []
      , .file "App.tsx" "import React from \"react\";\n\nconst App = () => <div>Hello World</div>;\n\nexport default App;"
      , .file "index.tsx" "import React from \"react\";\nimport ReactDOM from \"react-dom\";\nimport App from \"./App\";\n\nReactDOM.render(<App />, document.getElementById(\"root\"));"
      ]
  , .file "package.json" "\x7b \"name\": \"project-nexus-ui\", \"version\": \"1.0.0\" \x7d"
  , .file "README.md" "# Project Nexus UI\n\nThis is the initial README for the project."
  ]

/-- Whether a segment list resolves to a file under the matching discipline
of `recursiveUpdate`: some node chain matches every segment by name, every
interior node of the chain is a folder, and the final node is a file.  This
is exactly the condition under which `updateFileByPath` finds a file. -/
def resolvesToFile : List String → List FileNode → Bool
  | [], _ => false
  | _ :: _, [] => false
  | [h], .file n _ :: t => (n == h) || resolvesToFile [h] t
  | [h], .folder _ _ :: t => resolvesToFile [h] t
  | h :: h2 :: t, .file _ _ :: rest => resolvesToFile (h :: h2 :: t) rest
  | h :: h2 :: t, .folder n ch :: rest =>
    (n == h && resolvesToFile (h2 :: t) ch) || resolvesToFile (h :: h2 :: t) rest

/-- Whether the tree holds a node at the given name chain: interior
segments name folders on the chain, the final segment names a node of
either kind.  This identifies "a node present in the tree by its name and
position on a root path". -/
def hasNode : List String → List FileNode → Bool
  | [], _ => false
  | _ :: _, [] => false
  | [q], node :: t => (node.name == q) || hasNode [q] t
  | q :: q2 :: t, .file _ _ :: rest => hasNode (q :: q2 :: t) rest
  | q :: q2 :: t, .folder n ch :: rest =>
    (n == q && hasNode (q2 :: t) ch) || hasNode (q :: q2 :: t) rest

/-- Descend along a chain of folder names (first folder matching each name,
the discipline shared by the tree operations), returning the sibling list
at the end of the chain. -/
def subforest : List FileNode → List String → Option (List FileNode)
  | nodes, [] => some nodes
  | nodes, q :: rest =>
    match nodes.find? (fun n => n.name == q && n.isFolder) with
    | some (.folder _ ch) => subforest ch rest
    | _ => none

/-- Sibling-name uniqueness throughout the tree: no two siblings at any
level share a name (the invariant the spec's data model states). -/
def sibUnique : List FileNode → Bool
  | [] => true
  | .file n _ :: t => !(t.any (fun m => m.name == n)) && sibUnique t
  | .folder n ch :: t => !(t.any (fun m => m.name == n)) && sibUnique ch && sibUnique t

/-- A name usable inside a slash-joined path: nonempty and containing no
slash. -/
def wfName (s : String) : Bool :=
  s != "" && s.data.all (fun c => c != '/')

/-- Every node name in the tree is nonempty and slash-free. -/
def allWF : List FileNode → Bool
  | [] => true
  | .file n _ :: t => wfName n && allWF t
  | .folder n ch :: t => wfName n && allWF ch && allWF t

/-- Every node name in the tree is nonempty. -/
def noEmptyNames : List FileNode → Bool
  | [] => true
  | .file n _ :: t => n != "" && noEmptyNames t
  | .folder n ch :: t => n != "" && noEmptyNames ch && noEmptyNames t

/-- Whether `target` occurs (as a value) somewhere in the forest — the
reachability notion for `findPath`. -/
def containsNode (target : FileNode) : List FileNode → Bool
  | [] => false
  | node :: rest =>
    if node = target then true
    else
      (match node with
        | .folder _ ch => containsNode target ch
        | .file _ _ => false) || containsNode target rest
termination_by nodes => sizeOf nodes

/-! The generation boundary of `geminiService.ts`.  The external call and
the JavaScript-level JSON handling are foreign to the embedding, so a
call's observable outcome is modelled as a datatype: the call threw
(network/model failure), the response text failed `JSON.parse` (which
throws inside the same `try`), or it parsed, in which case the fields the
code reads are recorded (`none` for an absent/falsy field).  The functions
below then mirror the `try`/`catch` bodies of `generatePlan` and
`generateCode` exactly. -/

/-- Outcome of the `generatePlan` call: thrown call, unparsable response
text, or parsed JSON whose `subtasks` field is either a present (truthy)
string array or absent/falsy. -/
inductive PlanOutcome where
  | callFailure
  | unparsable
  | parsed (subtasks : Option (List String))

/-- The hard-coded plan returned by `generatePlan`'s `catch` branch. -/
def defaultPlan : List String :=
  ["Analyze requirements", "Implement feature", "Write tests", "Update documentation"]

/-- Embeds `generatePlan` of `geminiService.ts`: any exception in the `try`
(call failure or `JSON.parse` throw) is caught and replaced by the fixed
four-step plan; a parsed object yields `jsonResponse.subtasks`, or the
one-element error plan when that field is absent/falsy. -/
def generatePlan : PlanOutcome → List String
  | .callFailure => defaultPlan
  | .unparsable => defaultPlan
  | .parsed (some l) => l
  | .parsed none => ["Error: Could not generate plan."]

/-- Outcome of the `generateCode` call: thrown call, unparsable response
text, or parsed JSON with the `fileName` and `code` fields the caller
reads (`none` when a field is missing from the parsed object). -/
inductive CodeOutcome where
  | callFailure
  | unparsable
  | parsed (fileName : Option String) (code : Option String)

/-- Embeds `generateCode` of `geminiService.ts`: any exception in the `try`
is caught and replaced by the fixed `Error.tsx` placeholder pair; a parsed
object is returned as-is, whatever fields it has. -/
def generateCode (subtask : String) : CodeOutcome → Option String × Option String
  | .callFailure =>
    (some "src/components/Error.tsx", some ("// Failed to generate code for: " ++ subtask))
  | .unparsable =>
    (some "src/components/Error.tsx", some ("// Failed to generate code for: " ++ subtask))
  | .parsed f c => (f, c)

/-! Helper lemmas. -/

lemma lookupGo_some_file (lastSeg : String) :
    ∀ (parts : List String) (lvl : Option (List FileNode)) (n : FileNode),
      lookupGo lastSeg lvl parts = some n → n.isFile = true ∧ n.name = lastSeg := by
  intro parts
  induction parts with
  | nil => intro lvl n h; cases lvl <;> simp [lookupGo] at h
  | cons part rest IH =>
    intro lvl n h
    cases lvl with
    | none => simp [lookupGo] at h
    | some nodes =>
      simp only [lookupGo] at h
      split at h
      · exact absurd h (by simp)
      · rename_i node hf
        split at h
        · rename_i hc
          cases h
          have hp := List.find?_some hf
          simp only [Bool.and_eq_true, beq_iff_eq] at hc hp
          exact ⟨hc.1, hp.trans hc.2⟩
        · exact IH node.childrenOpt n h

lemma updLevel_unchanged (c h : String) (last : Bool)
    (k : List FileNode → List FileNode × Option FileNode) :
    ∀ nodes : List FileNode,
      (∀ node ∈ nodes, (node.name == h) = true →
        (∀ n c0, node = FileNode.file n c0 → last = false) ∧
        (∀ n ch, node = FileNode.folder n ch → k ch = (ch, none))) →
      updLevel c h last k nodes = (nodes, none) := by
  intro nodes
  induction nodes with
  | nil => intro _; rfl
  | cons node rest IH =>
    intro hcond
    have hrest := IH (fun m hm => hcond m (List.mem_cons_of_mem node hm))
    by_cases hn : (node.name == h) = true
    · obtain ⟨hfile, hfolder⟩ := hcond node (List.mem_cons_self node rest) hn
      cases node with
      | file n c0 =>
        have hl : last = false := hfile n c0 rfl
        simp only [FileNode.name] at hn
        subst hl
        simp [updLevel, updNode, hn, hrest]
      | folder n ch =>
        have hk : k ch = (ch, none) := hfolder n ch rfl
        simp only [FileNode.name] at hn
        simp [updLevel, updNode, hn, hrest, hk]
    · simp only [FileNode.name] at hn
      cases node <;> simp [updLevel, updNode, hn, hrest]

lemma resolve_single_false {h : String} :
    ∀ {nodes : List FileNode}, resolvesToFile [h] nodes = false →
      ∀ n c0, FileNode.file n c0 ∈ nodes → (n == h) = false := by
  intro nodes
  induction nodes with
  | nil => intro _ n c0 hm; simp at hm
  | cons node rest IH =>
    intro hres n c0 hm
    cases node with
    | file m d =>
      rw [resolvesToFile] at hres
      simp only [Bool.or_eq_false_iff] at hres
      rcases List.mem_cons.mp hm with he | hm2
      · cases he; exact hres.1
      · exact IH hres.2 n c0 hm2
    | folder m ds =>
      rw [resolvesToFile] at hres
      rcases List.mem_cons.mp hm with he | hm2
      · cases he
      · exact IH hres n c0 hm2

lemma resolve_multi_false {h h2 : String} {t2 : List String} :
    ∀ {nodes : List FileNode}, resolvesToFile (h :: h2 :: t2) nodes = false →
      ∀ n ch, FileNode.folder n ch ∈ nodes → (n == h) = true →
        resolvesToFile (h2 :: t2) ch = false := by
  intro nodes
  induction nodes with
  | nil => intro _ n ch hm; simp at hm
  | cons node rest IH =>
    intro hres n ch hm hn
    cases node with
    | file m d =>
      rw [resolvesToFile] at hres
      rcases List.mem_cons.mp hm with he | hm2
      · cases he
      · exact IH hres n ch hm2 hn
    | folder m ds =>
      rw [resolvesToFile] at hres
      simp only [Bool.or_eq_false_iff, Bool.and_eq_false_iff] at hres
      rcases List.mem_cons.mp hm with he | hm2
      · cases he
        rcases hres.1 with hmh | hds
        · exact absurd hn (by simp [hmh])
        · exact hds
      · exact IH hres.2 n ch hm2 hn

lemma noResolve_unchanged (c : String) :
    ∀ (parts : List String) (nodes : List FileNode),
      resolvesToFile parts nodes = false →
      recursiveUpdate c parts nodes = (nodes, none) := by
  intro parts
  induction parts with
  | nil => intro nodes _; rfl
  | cons h t IH =>
    intro nodes hres
    simp only [recursiveUpdate]
    cases t with
    | nil =>
      apply updLevel_unchanged
      intro node hm hn
      refine ⟨?_, ?_⟩
      · intro n c0 he
        subst he
        simp only [FileNode.name] at hn
        exact absurd hn (by simp [resolve_single_false hres n c0 hm])
      · intro n ch he
        subst he
        rfl
    | cons h2 t2 =>
      apply updLevel_unchanged
      intro node hm hn
      refine ⟨fun n c0 he => by simp, ?_⟩
      intro n ch he
      subst he
      simp only [FileNode.name] at hn
      exact IH ch (resolve_multi_false hres n ch hm hn)

/-- C3: lookup, as the code implements it, never returns a folder: a
successful `findAndSelectFile` always yields a file whose name is the
final (filtered) path segment. -/
theorem c3_lookup_returns_final_file (nodes : List FileNode) (path : String) (n : FileNode)
    (h : findAndSelectFile nodes path = some n) :
    n.isFile = true ∧ n.name = (fparts path).getLastD "" := by
  exact lookupGo_some_file _ _ _ _ h

/-- C3 witness: a bare top-level file path resolves to that file, and the
characterisation applies to it. -/
theorem c3_lookup_returns_final_file_witness :
    findAndSelectFile [FileNode.file "a" "x"] "a" = some (FileNode.file "a" "x") ∧
    (FileNode.file "a" "x").isFile = true ∧
    (FileNode.file "a" "x").name = (fparts "a").getLastD "" :=
  ⟨rfl, c3_lookup_returns_final_file [FileNode.file "a" "x"] "a" (FileNode.file "a" "x") rfl⟩

/-- C3 counterexample: the claim says the final segment may match a node of
either type, but a path whose final segment matches a folder returns
NotFound — here the folder `src` is present at the path `src`, yet lookup
returns `none`. -/
theorem c3_counterexample :
    hasNode ["src"] [FileNode.folder "src" []] = true ∧
    findAndSelectFile [FileNode.folder "src" []] "src" = none := by
  refine ⟨?_, rfl⟩
  simp [hasNode]

/-- C4: a path that does not resolve to a file (under the segment-chain
discipline of `updateFileByPath`) leaves the tree unchanged — the result
is the very tree passed in, paired with no found node. -/
theorem c4_update_miss_unchanged (T : List FileNode) (p c : String)
    (h : resolvesToFile (jsSplit p) T = false) :
    updateFileByPath T p c = (T, none) :=
  noResolve_unchanged c (jsSplit p) T h

/-- C4 witness: a missing path on the seed tree. -/
theorem c4_update_miss_unchanged_witness :
    resolvesToFile (jsSplit "src/Missing.tsx") INITIAL_FILE_STRUCTURE = false ∧
    updateFileByPath INITIAL_FILE_STRUCTURE "src/Missing.tsx" "x" = (INITIAL_FILE_STRUCTURE, none) := by
  have h : resolvesToFile (jsSplit "src/Missing.tsx") INITIAL_FILE_STRUCTURE = false := by
    simp [resolvesToFile, jsSplit, splitSlashChars, INITIAL_FILE_STRUCTURE]
  exact ⟨h, c4_update_miss_unchanged INITIAL_FILE_STRUCTURE "src/Missing.tsx" "x" h⟩

lemma putFile_idem (fn c : String) :
    ∀ nodes : List FileNode, putFile fn c (putFile fn c nodes) = putFile fn c nodes := by
  intro nodes
  induction nodes with
  | nil => simp [putFile]
  | cons node t IH =>
    cases node with
    | file n c0 =>
      by_cases hn : (n == fn) = true
      · simp [putFile, hn]
      · simp only [Bool.not_eq_true] at hn
        simp [putFile, hn, IH]
    | folder n ch => simp [putFile, IH]

lemma descendInto_idem (p : String) (k : List FileNode → List FileNode)
    (hk : ∀ l, k (k l) = k l) :
    ∀ nodes : List FileNode, descendInto p k (descendInto p k nodes) = descendInto p k nodes := by
  intro nodes
  induction nodes with
  | nil => simp [descendInto, hk]
  | cons node t IH =>
    cases node with
    | file n c0 => simp [descendInto, IH]
    | folder n ch =>
      by_cases hn : (n == p) = true
      · simp [descendInto, hn, hk]
      · simp only [Bool.not_eq_true] at hn
        simp [descendInto, hn, IH]

lemma createPath_idem (fn c : String) :
    ∀ (parts : List String) (nodes : List FileNode),
      createPath fn c parts (createPath fn c parts nodes) = createPath fn c parts nodes := by
  intro parts
  induction parts with
  | nil => intro nodes; exact putFile_idem fn c nodes
  | cons p rest IH => intro nodes; exact descendInto_idem p _ (fun l => IH l) nodes

/-- C5: `findOrCreateFile` is idempotent — applying it twice with the same
path and content produces the same tree as applying it once (the input
tree itself is never mutated: the embedding is pure, as the source
guarantees by operating on a deep copy). -/
theorem c5_findOrCreate_idempotent (T : List FileNode) (p c : String) :
    findOrCreateFile (findOrCreateFile T p c) p c = findOrCreateFile T p c := by
  unfold findOrCreateFile
  cases h : (fparts p).getLast? with
  | none => simp only [h]
  | some fn => simp only [h]; exact createPath_idem fn c (fparts p).dropLast T

lemma descendInto_append (p : String) (k : List FileNode → List FileNode) :
    ∀ nodes : List FileNode, (∀ n ∈ nodes, (n.isFolder && n.name == p) = false) →
      descendInto p k nodes = nodes ++ [FileNode.folder p (k [])] := by
  intro nodes
  induction nodes with
  | nil => intro _; rfl
  | cons node t IH =>
    intro hno
    have ht := IH (fun m hm => hno m (List.mem_cons_of_mem node hm))
    cases node with
    | file n c0 => simp [descendInto, ht]
    | folder n ch =>
      have hn := hno (FileNode.folder n ch) (List.mem_cons_self _ _)
      simp only [FileNode.isFolder, FileNode.name, Bool.true_and] at hn
      simp [descendInto, hn, ht]

lemma descendInto_mem (p : String) (k : List FileNode → List FileNode) :
    ∀ (nodes : List FileNode) (n : FileNode),
      n ∈ nodes → (n.isFolder && n.name == p) = false → n ∈ descendInto p k nodes := by
  intro nodes
  induction nodes with
  | nil => intro n hm _; simp at hm
  | cons node t IH =>
    intro n hm hnp
    rcases List.mem_cons.mp hm with he | hm2
    · subst he
      cases n with
      | file m d =>
        exact List.mem_cons_self _ _
      | folder m ch =>
        have hmp : (m == p) = false := by simpa using hnp
        simp only [descendInto, hmp, Bool.false_eq_true, if_false]
        exact List.mem_cons_self _ _
    · cases node with
      | file m d =>
        exact List.mem_cons_of_mem _ (IH n hm2 hnp)
      | folder m ch =>
        by_cases hmp : (m == p) = true
        · simp only [descendInto, hmp, if_true]
          exact List.mem_cons_of_mem _ hm2
        · simp only [descendInto, hmp, if_false]
          exact List.mem_cons_of_mem _ (IH n hm2 hnp)

/-- C6: on the seed tree, `findOrCreateFile "src/components/Login.tsx"`
places `Login.tsx` with the given content inside the existing
`src/components` folder while `src/App.tsx` and `README.md` are unchanged
by value; in general a missing folder segment is appended at the end of
the level without disturbing any existing sibling. -/
theorem c6_findOrCreate_scenario :
    (findAndSelectFile (findOrCreateFile INITIAL_FILE_STRUCTURE "src/components/Login.tsx" "// code")
        "src/components/Login.tsx" = some (FileNode.file "Login.tsx" "// code"))
    ∧ (findAndSelectFile (findOrCreateFile INITIAL_FILE_STRUCTURE "src/components/Login.tsx" "// code")
        "src/App.tsx" = findAndSelectFile INITIAL_FILE_STRUCTURE "src/App.tsx")
    ∧ (findAndSelectFile (findOrCreateFile INITIAL_FILE_STRUCTURE "src/components/Login.tsx" "// code")
        "README.md" = findAndSelectFile INITIAL_FILE_STRUCTURE "README.md")
    ∧ (∀ (nodes : List FileNode) (part : String) (k : List FileNode → List FileNode),
        (∀ n ∈ nodes, (n.isFolder && n.name == part) = false) →
          descendInto part k nodes = nodes ++ [FileNode.folder part (k [])])
    ∧ (∀ (nodes : List FileNode) (part : String) (k : List FileNode → List FileNode) (n : FileNode),
        n ∈ nodes → (n.isFolder && n.name == part) = false → n ∈ descendInto part k nodes) :=
  ⟨rfl, rfl, rfl,
   fun nodes part k hno => descendInto_append part k nodes hno,
   fun nodes part k n hm hnp => descendInto_mem part k nodes n hm hnp⟩

/-- C6 witness: the general missing-folder conjunct applied to a level
holding one unrelated file. -/
theorem c6_findOrCreate_scenario_witness :
    (∀ n ∈ [FileNode.file "keep" "x"], (n.isFolder && n.name == "docs") = false) ∧
    descendInto "docs" id [FileNode.file "keep" "x"] =
      [FileNode.file "keep" "x"] ++ [FileNode.folder "docs" (id [])] :=
  ⟨by decide, (c6_findOrCreate_scenario.2.2.2.1) [FileNode.file "keep" "x"] "docs" id (by decide)⟩

lemma emptySeg_noResolve :
    ∀ (parts : List String) (nodes : List FileNode),
      "" ∈ parts → noEmptyNames nodes = true → resolvesToFile parts nodes = false := by
  intro parts
  induction parts with
  | nil => intro nodes hm; simp at hm
  | cons h t IH =>
    intro nodes hm hne
    induction nodes with
    | nil => cases t <;> simp [resolvesToFile]
    | cons node rest IHn =>
      cases node with
      | file n c0 =>
        rw [noEmptyNames] at hne
        simp only [Bool.and_eq_true] at hne
        have hrest := IHn hne.2
        cases t with
        | nil =>
          have hh : h = "" := by
            have h0 : "" = h := by simpa using hm
            exact h0.symm
          subst hh
          rw [resolvesToFile]
          have hn0 : (n == "") = false := by
            have := hne.1
            simp only [bne_iff_ne, ne_eq] at this
            simpa using this
          simp [hn0, hrest]
        | cons h2 t2 =>
          rw [resolvesToFile]
          exact hrest
      | folder n ch =>
        rw [noEmptyNames] at hne
        simp only [Bool.and_eq_true] at hne
        have hrest := IHn hne.2
        cases t with
        | nil =>
          rw [resolvesToFile]
          exact hrest
        | cons h2 t2 =>
          rw [resolvesToFile]
          simp only [Bool.or_eq_false_iff, Bool.and_eq_false_iff]
          refine ⟨?_, hrest⟩
          rcases List.mem_cons.mp hm with hh | hmt
          · left
            have hn0 : (n == h) = false := by
              rw [← hh]
              have := hne.1.1
              simp only [bne_iff_ne, ne_eq] at this
              simpa using this
            exact hn0
          · right
            exact IH ch hmt hne.1.2

/-- C7 counterexample: the claim says empty segments are filtered in all
three operations, but `updateFileByPath` splits without filtering — the
path `/A` resolves for lookup yet the update fails to find the file and
leaves the tree unchanged. -/
theorem c7_counterexample :
    findAndSelectFile [FileNode.file "A" "x"] "/A" = some (FileNode.file "A" "x") ∧
    updateFileByPath [FileNode.file "A" "x"] "/A" "y" = ([FileNode.file "A" "x"], none) :=
  ⟨rfl, rfl⟩

/-- C9: call failures and JSON-parse failures are recovered with the fixed
fallbacks (the four-step plan, the `Error.tsx` placeholder pair) and the
functions are total, but a response that parses as JSON while missing the
expected fields is not treated like a call failure: `generatePlan`
substitutes a distinct one-element error plan and `generateCode` passes
the malformed fields through unchanged. -/
theorem c9_generation_fallbacks (s : String) :
    generatePlan PlanOutcome.callFailure = defaultPlan
    ∧ generatePlan PlanOutcome.unparsable = defaultPlan
    ∧ generatePlan (PlanOutcome.parsed none) = ["Error: Could not generate plan."]
    ∧ (∀ l, generatePlan (PlanOutcome.parsed (some l)) = l)
    ∧ generateCode s CodeOutcome.callFailure =
        (some "src/components/Error.tsx", some ("// Failed to generate code for: " ++ s))
    ∧ generateCode s CodeOutcome.unparsable =
        (some "src/components/Error.tsx", some ("// Failed to generate code for: " ++ s))
    ∧ (∀ f c, generateCode s (CodeOutcome.parsed f c) = (f, c)) :=
  ⟨rfl, rfl, rfl, fun _ => rfl, rfl, rfl, fun _ _ => rfl⟩

/-- C9 counterexample: a malformed-but-parsable response is not treated
identically to a call failure — `generatePlan` yields the one-element
error plan rather than the four-step plan, and `generateCode` returns the
missing fields as-is rather than the `Error.tsx` placeholder. -/
theorem c9_counterexample :
    generatePlan (PlanOutcome.parsed none) = ["Error: Could not generate plan."]
    ∧ generatePlan PlanOutcome.callFailure = defaultPlan
    ∧ ["Error: Could not generate plan."] ≠ defaultPlan
    ∧ generateCode "t" (CodeOutcome.parsed none none) = (none, none)
    ∧ generateCode "t" CodeOutcome.callFailure =
        (some "src/components/Error.tsx", some "// Failed to generate code for: t")
    ∧ ((none, none) : Option String × Option String) ≠
        (some "src/components/Error.tsx", some "// Failed to generate code for: t") := by
  refine ⟨rfl, rfl, ?_, rfl, rfl, ?_⟩ <;> decide

/-- C10: the folder-walk of `findOrCreateFile` matches interior segments
only against folders, so when the level has no folder of that name — even
when a file of that name is present — a fresh folder is appended beside
it, and the resulting level holds two same-named siblings. -/
theorem c10_duplicate_sibling_names (nodes : List FileNode) (p fn c : String) (rest : List String)
    (hnofold : ∀ n ∈ nodes, (n.isFolder && n.name == p) = false) :
    createPath fn c (p :: rest) nodes =
      nodes ++ [FileNode.folder p (createPath fn c rest [])]
    ∧ ∀ fc, FileNode.file p fc ∈ nodes →
        FileNode.file p fc ∈ createPath fn c (p :: rest) nodes
        ∧ FileNode.folder p (createPath fn c rest []) ∈ createPath fn c (p :: rest) nodes := by
  have happ : createPath fn c (p :: rest) nodes =
      nodes ++ [FileNode.folder p (createPath fn c rest [])] :=
    descendInto_append p (createPath fn c rest) nodes hnofold
  refine ⟨happ, ?_⟩
  intro fc hmem
  rw [happ]
  exact ⟨List.mem_append_left _ hmem, List.mem_append_right _ (List.mem_cons_self _ _)⟩

/-- C10 witness: a level holding only the file `a` gets a sibling folder
`a` appended when the path `a/b.txt` is created. -/
theorem c10_duplicate_sibling_names_witness :
    (∀ n ∈ [FileNode.file "a" "x"], (n.isFolder && n.name == "a") = false) ∧
    createPath "b.txt" "code" ["a"] [FileNode.file "a" "x"] =
      [FileNode.file "a" "x"] ++ [FileNode.folder "a" (createPath "b.txt" "code" [] [])] :=
  ⟨by decide,
   (c10_duplicate_sibling_names [FileNode.file "a" "x"] "a" "b.txt" "code" [] (by decide)).1⟩

lemma updLevel_cons (c h : String) (last : Bool)
    (k : List FileNode → List FileNode × Option FileNode) (node : FileNode)
    (rest : List FileNode) :
    (updLevel c h last k (node :: rest)).1 =
      (updNode c h last k node).1 :: (updLevel c h last k rest).1 := rfl

lemma updNode_fst_name (c h : String) (last : Bool)
    (k : List FileNode → List FileNode × Option FileNode) (node : FileNode) :
    ((updNode c h last k node).1).name = node.name := by
  cases node with
  | file n c0 =>
    simp only [updNode]
    split
    · split <;> rfl
    · rfl
  | folder n ch =>
    simp only [updNode]
    split <;> rfl

lemma updNode_fst_file (c h : String) (last : Bool)
    (k : List FileNode → List FileNode × Option FileNode) (n c0 : String) :
    ∃ cc, (updNode c h last k (FileNode.file n c0)).1 = FileNode.file n cc := by
  simp only [updNode]
  split
  · split
    · exact ⟨c, rfl⟩
    · exact ⟨c0, rfl⟩
  · exact ⟨c0, rfl⟩

lemma updNode_fst_folder (c h : String) (last : Bool)
    (k : List FileNode → List FileNode × Option FileNode) (n : String) (ch : List FileNode) :
    (updNode c h last k (FileNode.folder n ch)).1 = FileNode.folder n (k ch).1 ∨
    (updNode c h last k (FileNode.folder n ch)).1 = FileNode.folder n ch := by
  simp only [updNode]
  split
  · exact Or.inl rfl
  · exact Or.inr rfl

lemma hasNode_updLevel (c h : String) (last : Bool)
    (k : List FileNode → List FileNode × Option FileNode)
    (hk : ∀ (q : List String) (ch : List FileNode),
      hasNode q ch = true → hasNode q (k ch).1 = true) :
    ∀ (nodes : List FileNode) (q : List String),
      hasNode q nodes = true → hasNode q (updLevel c h last k nodes).1 = true := by
  intro nodes
  induction nodes with
  | nil =>
    intro q hq
    cases q with
    | nil => rw [hasNode] at hq; simp at hq
    | cons q0 qt => rw [hasNode] at hq; simp at hq
  | cons node rest IH =>
    intro q hq
    rw [updLevel_cons]
    cases q with
    | nil => rw [hasNode] at hq; simp at hq
    | cons q0 qt =>
      cases qt with
      | nil =>
        rw [hasNode] at hq ⊢
        simp only [Bool.or_eq_true] at hq ⊢
        rcases hq with hname | htail
        · left
          rw [updNode_fst_name]
          exact hname
        · exact Or.inr (IH [q0] htail)
      | cons q1 qt2 =>
        cases node with
        | file n c0 =>
          rw [hasNode] at hq
          obtain ⟨cc, hcc⟩ := updNode_fst_file c h last k n c0
          rw [hcc, hasNode]
          exact IH _ hq
        | folder n ch =>
          rw [hasNode] at hq
          simp only [Bool.or_eq_true, Bool.and_eq_true] at hq
          rcases updNode_fst_folder c h last k n ch with hev | hev <;>
            rw [hev, hasNode] <;> simp only [Bool.or_eq_true, Bool.and_eq_true]
          · rcases hq with ⟨hn, hch⟩ | htail
            · exact Or.inl ⟨hn, hk _ ch hch⟩
            · exact Or.inr (IH _ htail)
          · rcases hq with ⟨hn, hch⟩ | htail
            · exact Or.inl ⟨hn, hch⟩
            · exact Or.inr (IH _ htail)

lemma hasNode_recursiveUpdate (c : String) :
    ∀ (parts : List String) (nodes : List FileNode) (q : List String),
      hasNode q nodes = true → hasNode q (recursiveUpdate c parts nodes).1 = true := by
  intro parts
  induction parts with
  | nil => intro nodes q hq; exact hq
  | cons h t IH =>
    intro nodes q hq
    simp only [recursiveUpdate]
    exact hasNode_updLevel c h t.isEmpty _ (fun q2 ch hq2 => IH ch q2 hq2) nodes q hq

lemma hasNode_putFile (fn c : String) :
    ∀ (nodes : List FileNode) (q : List String),
      hasNode q nodes = true → hasNode q (putFile fn c nodes) = true := by
  intro nodes
  induction nodes with
  | nil =>
    intro q hq
    cases q with
    | nil => rw [hasNode] at hq; simp at hq
    | cons q0 qt => rw [hasNode] at hq; simp at hq
  | cons node rest IH =>
    intro q hq
    cases q with
    | nil => rw [hasNode] at hq; simp at hq
    | cons q0 qt =>
      cases node with
      | file n c0 =>
        by_cases hn : (n == fn) = true
        · simp only [putFile, hn, if_true]
          cases qt with
          | nil =>
            rw [hasNode] at hq ⊢
            simpa using hq
          | cons q1 qt2 =>
            rw [hasNode] at hq ⊢
            exact hq
        · simp only [putFile, hn, Bool.false_eq_true, if_false]
          cases qt with
          | nil =>
            rw [hasNode] at hq ⊢
            simp only [Bool.or_eq_true] at hq ⊢
            rcases hq with h1 | h2
            · exact Or.inl h1
            · exact Or.inr (IH [q0] h2)
          | cons q1 qt2 =>
            rw [hasNode] at hq ⊢
            exact IH _ hq
      | folder n ch =>
        simp only [putFile]
        cases qt with
        | nil =>
          rw [hasNode] at hq ⊢
          simp only [Bool.or_eq_true] at hq ⊢
          rcases hq with h1 | h2
          · exact Or.inl h1
          · exact Or.inr (IH [q0] h2)
        | cons q1 qt2 =>
          rw [hasNode] at hq ⊢
          simp only [Bool.or_eq_true, Bool.and_eq_true] at hq ⊢
          rcases hq with ⟨h1, h2⟩ | h3
          · exact Or.inl ⟨h1, h2⟩
          · exact Or.inr (IH _ h3)

lemma hasNode_descendInto (p : String) (k : List FileNode → List FileNode)
    (hk : ∀ (q : List String) (ch : List FileNode),
      hasNode q ch = true → hasNode q (k ch) = true) :
    ∀ (nodes : List FileNode) (q : List String),
      hasNode q nodes = true → hasNode q (descendInto p k nodes) = true := by
  intro nodes
  induction nodes with
  | nil =>
    intro q hq
    cases q with
    | nil => rw [hasNode] at hq; simp at hq
    | cons q0 qt => rw [hasNode] at hq; simp at hq
  | cons node rest IH =>
    intro q hq
    cases q with
    | nil => rw [hasNode] at hq; simp at hq
    | cons q0 qt =>
      cases node with
      | file m d =>
        have hstep : descendInto p k (FileNode.file m d :: rest) =
            FileNode.file m d :: descendInto p k rest := rfl
        rw [hstep]
        cases qt with
        | nil =>
          rw [hasNode] at hq ⊢
          simp only [Bool.or_eq_true] at hq ⊢
          rcases hq with h1 | h2
          · exact Or.inl h1
          · exact Or.inr (IH [q0] h2)
        | cons q1 qt2 =>
          rw [hasNode] at hq ⊢
          exact IH _ hq
      | folder m ch =>
        by_cases hmp : (m == p) = true
        · simp only [descendInto, hmp, if_true]
          cases qt with
          | nil =>
            rw [hasNode] at hq ⊢
            simpa using hq
          | cons q1 qt2 =>
            rw [hasNode] at hq ⊢
            simp only [Bool.or_eq_true, Bool.and_eq_true] at hq ⊢
            rcases hq with ⟨h1, h2⟩ | h3
            · exact Or.inl ⟨h1, hk _ ch h2⟩
            · exact Or.inr h3
        · simp only [descendInto, hmp, Bool.false_eq_true, if_false]
          cases qt with
          | nil =>
            rw [hasNode] at hq ⊢
            simp only [Bool.or_eq_true] at hq ⊢
            rcases hq with h1 | h2
            · exact Or.inl h1
            · exact Or.inr (IH [q0] h2)
          | cons q1 qt2 =>
            rw [hasNode] at hq ⊢
            simp only [Bool.or_eq_true, Bool.and_eq_true] at hq ⊢
            rcases hq with ⟨h1, h2⟩ | h3
            · exact Or.inl ⟨h1, h2⟩
            · exact Or.inr (IH _ h3)

lemma hasNode_createPath (fn c : String) :
    ∀ (parts : List String) (nodes : List FileNode) (q : List String),
      hasNode q nodes = true → hasNode q (createPath fn c parts nodes) = true := by
  intro parts
  induction parts with
  | nil => intro nodes q hq; exact hasNode_putFile fn c nodes q hq
  | cons p rest IH =>
    intro nodes q hq
    exact hasNode_descendInto p _ (fun q2 ch hq2 => IH ch q2 hq2) nodes q hq

/-- C8: neither operation deletes nodes — every node present in the tree
by its name chain from the root is still present after `updateFileByPath`
and after `findOrCreateFile`. -/
theorem c8_no_deletion (T : List FileNode) (p c : String) (q : List String)
    (h : hasNode q T = true) :
    hasNode q (updateFileByPath T p c).1 = true ∧
    hasNode q (findOrCreateFile T p c) = true := by
  constructor
  · exact hasNode_recursiveUpdate c (jsSplit p) T q h
  · unfold findOrCreateFile
    cases hl : (fparts p).getLast? with
    | none => simp only [hl]; exact h
    | some fn => simp only [hl]; exact hasNode_createPath fn c _ T q h

/-- C8 witness: `src/App.tsx` survives both an update of `README.md` and
the creation of `src/components/Login.tsx` on the seed tree. -/
theorem c8_no_deletion_witness :
    hasNode ["src", "App.tsx"] INITIAL_FILE_STRUCTURE = true ∧
    (hasNode ["src", "App.tsx"]
        (updateFileByPath INITIAL_FILE_STRUCTURE "src/components/Login.tsx" "// code").1 = true ∧
     hasNode ["src", "App.tsx"]
        (findOrCreateFile INITIAL_FILE_STRUCTURE "src/components/Login.tsx" "// code") = true) := by
  have h : hasNode ["src", "App.tsx"] INITIAL_FILE_STRUCTURE = true := by
    simp [hasNode, INITIAL_FILE_STRUCTURE]
  exact ⟨h, c8_no_deletion INITIAL_FILE_STRUCTURE "src/components/Login.tsx" "// code"
    ["src", "App.tsx"] h⟩

lemma updLevel_fst_map (c h : String) (last : Bool)
    (k : List FileNode → List FileNode × Option FileNode) :
    ∀ nodes : List FileNode,
      (updLevel c h last k nodes).1 = nodes.map (fun node => (updNode c h last k node).1) := by
  intro nodes
  induction nodes with
  | nil => rfl
  | cons node rest IH => rw [updLevel_cons, IH]; rfl

lemma updNode_fst_isFolder (c h : String) (last : Bool)
    (k : List FileNode → List FileNode × Option FileNode) (node : FileNode) :
    ((updNode c h last k node).1).isFolder = node.isFolder := by
  cases node with
  | file n c0 =>
    simp only [updNode]
    split
    · split <;> rfl
    · rfl
  | folder n ch =>
    simp only [updNode]
    split <;> rfl

lemma updNode_fst_nomatch (c h : String) (last : Bool)
    (k : List FileNode → List FileNode × Option FileNode) (node : FileNode)
    (hn : (node.name == h) = false) :
    (updNode c h last k node).1 = node := by
  cases node with
  | file n c0 =>
    simp only [FileNode.name] at hn
    simp [updNode, hn]
  | folder n ch =>
    simp only [FileNode.name] at hn
    simp [updNode, hn]

lemma find?_updLevel (c h : String) (last : Bool)
    (k : List FileNode → List FileNode × Option FileNode)
    (p : FileNode → Bool)
    (hp : ∀ node, p ((updNode c h last k node).1) = p node) (nodes : List FileNode) :
    (updLevel c h last k nodes).1.find? p =
      (nodes.find? p).map (fun node => (updNode c h last k node).1) := by
  rw [updLevel_fst_map, List.find?_map]
  have hcomp : (p ∘ fun node => (updNode c h last k node).1) = p := funext fun node => hp node
  rw [hcomp]

lemma sibUnique_cons_file {n c0 : String} {t : List FileNode}
    (h : sibUnique (FileNode.file n c0 :: t) = true) :
    (∀ m ∈ t, (m.name == n) = false) ∧ sibUnique t = true := by
  rw [sibUnique] at h
  simp only [Bool.and_eq_true, Bool.not_eq_true', List.any_eq_false] at h
  refine ⟨fun m hm => ?_, h.2⟩
  simpa using h.1 m hm

lemma sibUnique_cons_folder {n : String} {ch t : List FileNode}
    (h : sibUnique (FileNode.folder n ch :: t) = true) :
    (∀ m ∈ t, (m.name == n) = false) ∧ sibUnique ch = true ∧ sibUnique t = true := by
  rw [sibUnique] at h
  simp only [Bool.and_eq_true, Bool.not_eq_true', List.any_eq_false] at h
  refine ⟨fun m hm => ?_, h.1.2, h.2⟩
  simpa using h.1.1 m hm

lemma noNameMatch_noResolve (h : String) (t : List String) :
    ∀ nodes : List FileNode, (∀ m ∈ nodes, (m.name == h) = false) →
      resolvesToFile (h :: t) nodes = false := by
  intro nodes
  induction nodes with
  | nil => intro _; cases t <;> simp [resolvesToFile]
  | cons node rest IH =>
    intro hno
    have hr := IH (fun m hm => hno m (List.mem_cons_of_mem _ hm))
    have hh := hno node (List.mem_cons_self _ _)
    cases node with
    | file n c0 =>
      simp only [FileNode.name] at hh
      cases t with
      | nil => rw [resolvesToFile]; simp [hh, hr]
      | cons h2 t2 => rw [resolvesToFile]; exact hr
    | folder n ch =>
      simp only [FileNode.name] at hh
      cases t with
      | nil => rw [resolvesToFile]; exact hr
      | cons h2 t2 => rw [resolvesToFile]; simp [hh, hr]

lemma resolve_find_file (h : String) :
    ∀ nodes : List FileNode, sibUnique nodes = true → resolvesToFile [h] nodes = true →
      ∃ c0, nodes.find? (fun n => n.name == h) = some (FileNode.file h c0) := by
  intro nodes
  induction nodes with
  | nil => intro _ hres; rw [resolvesToFile] at hres; exact absurd hres (by simp)
  | cons node rest IH =>
    intro hu hres
    cases node with
    | file n c0 =>
      obtain ⟨hnodup, hurest⟩ := sibUnique_cons_file hu
      by_cases hn : (n == h) = true
      · have hnh : n = h := by simpa using hn
        subst hnh
        exact ⟨c0, List.find?_cons_of_pos _ (by simp)⟩
      · rw [resolvesToFile] at hres
        simp only [Bool.not_eq_true] at hn
        rw [hn] at hres
        simp only [Bool.false_or] at hres
        rw [List.find?_cons_of_neg _ (by simp [hn])]
        exact IH hurest hres
    | folder n ch =>
      obtain ⟨hnodup, _, hurest⟩ := sibUnique_cons_folder hu
      rw [resolvesToFile] at hres
      by_cases hn : (n == h) = true
      · have hnh : n = h := by simpa using hn
        subst hnh
        have hnone : resolvesToFile [n] rest = false :=
          noNameMatch_noResolve n [] rest hnodup
        rw [hnone] at hres
        exact absurd hres (by simp)
      · simp only [Bool.not_eq_true] at hn
        rw [List.find?_cons_of_neg _ (by simp [hn])]
        exact IH hurest hres

lemma resolve_find_folder (h h2 : String) (t2 : List String) :
    ∀ nodes : List FileNode, sibUnique nodes = true →
      resolvesToFile (h :: h2 :: t2) nodes = true →
      ∃ ch, nodes.find? (fun n => n.name == h) = some (FileNode.folder h ch) ∧
        resolvesToFile (h2 :: t2) ch = true ∧ sibUnique ch = true := by
  intro nodes
  induction nodes with
  | nil => intro _ hres; rw [resolvesToFile] at hres; exact absurd hres (by simp)
  | cons node rest IH =>
    intro hu hres
    cases node with
    | file n c0 =>
      obtain ⟨hnodup, hurest⟩ := sibUnique_cons_file hu
      rw [resolvesToFile] at hres
      by_cases hn : (n == h) = true
      · have hnh : n = h := by simpa using hn
        subst hnh
        have hnone : resolvesToFile (n :: h2 :: t2) rest = false :=
          noNameMatch_noResolve n (h2 :: t2) rest hnodup
        rw [hnone] at hres
        exact absurd hres (by simp)
      · simp only [Bool.not_eq_true] at hn
        rw [List.find?_cons_of_neg _ (by simp [hn])]
        exact IH hurest hres
    | folder n ch =>
      obtain ⟨hnodup, huch, hurest⟩ := sibUnique_cons_folder hu
      rw [resolvesToFile] at hres
      simp only [Bool.or_eq_true, Bool.and_eq_true] at hres
      rcases hres with ⟨hn, hch⟩ | hrest
      · have hnh : n = h := by simpa using hn
        subst hnh
        exact ⟨ch, List.find?_cons_of_pos _ (by simp), hch, huch⟩
      · by_cases hn : (n == h) = true
        · have hnh : n = h := by simpa using hn
          subst hnh
          have hnone : resolvesToFile (n :: h2 :: t2) rest = false :=
            noNameMatch_noResolve n (h2 :: t2) rest hnodup
          rw [hnone] at hrest
          exact absurd hrest (by simp)
        · simp only [Bool.not_eq_true] at hn
          rw [List.find?_cons_of_neg _ (by simp [hn])]
          exact IH hurest hrest

lemma getLastD_indep {α : Type} (l : List α) (a d1 d2 : α) :
    (a :: l).getLastD d1 = (a :: l).getLastD d2 := by
  rw [List.getLastD_cons, List.getLastD_cons]

lemma lookup_after_update (c : String) :
    ∀ (parts : List String) (nodes : List FileNode) (L : String),
      parts.getLastD "" = L →
      sibUnique nodes = true →
      resolvesToFile parts nodes = true →
      lookupGo L (some ((recursiveUpdate c parts nodes).1)) parts =
        some (FileNode.file L c) := by
  intro parts
  induction parts with
  | nil =>
    intro nodes L _ _ hres
    rw [resolvesToFile] at hres
    exact absurd hres (by simp)
  | cons h t IH =>
    intro nodes L hL hu hres
    cases t with
    | nil =>
      have hLh : h = L := by simpa using hL
      subst hLh
      obtain ⟨c0, hfind⟩ := resolve_find_file h nodes hu hres
      rw [recursiveUpdate]
      have hfm : (updLevel c h ([] : List String).isEmpty (recursiveUpdate c []) nodes).1.find?
          (fun n => n.name == h) = some (FileNode.file h c) := by
        rw [find?_updLevel c h ([] : List String).isEmpty (recursiveUpdate c [])
          (fun n => n.name == h) (fun node => by simp only [updNode_fst_name]) nodes, hfind]
        simp [updNode]
      rw [lookupGo, hfm]
      simp
    | cons h2 t2 =>
      have hL2 : (h2 :: t2).getLastD "" = L := by
        rw [List.getLastD_cons] at hL
        rw [getLastD_indep t2 h2 "" h]
        exact hL
      obtain ⟨ch, hfind, hres2, hu2⟩ := resolve_find_folder h h2 t2 nodes hu hres
      rw [recursiveUpdate]
      have hfm : (updLevel c h (h2 :: t2).isEmpty (recursiveUpdate c (h2 :: t2)) nodes).1.find?
          (fun n => n.name == h) =
          some (FileNode.folder h ((recursiveUpdate c (h2 :: t2) ch).1)) := by
        rw [find?_updLevel c h (h2 :: t2).isEmpty (recursiveUpdate c (h2 :: t2))
          (fun n => n.name == h) (fun node => by simp only [updNode_fst_name]) nodes, hfind]
        simp [updNode]
      rw [lookupGo, hfm]
      simp only [FileNode.isFile, Bool.false_and, Bool.false_eq_true, if_false,
        FileNode.childrenOpt]
      exact IH ch L hL2 hu2 hres2

lemma subforest_cons_none {nodes : List FileNode} {q : String} {rest : List String}
    (hf : nodes.find? (fun n => n.name == q && n.isFolder) = none) :
    subforest nodes (q :: rest) = none := by
  rw [subforest, hf]

lemma subforest_cons_file {nodes : List FileNode} {q : String} {rest : List String}
    {m d : String}
    (hf : nodes.find? (fun n => n.name == q && n.isFolder) = some (FileNode.file m d)) :
    subforest nodes (q :: rest) = none := by
  rw [subforest, hf]

lemma subforest_cons_folder {nodes : List FileNode} {q : String} {rest : List String}
    {m : String} {ch : List FileNode}
    (hf : nodes.find? (fun n => n.name == q && n.isFolder) = some (FileNode.folder m ch)) :
    subforest nodes (q :: rest) = subforest ch rest := by
  rw [subforest, hf]

lemma subforest_update (c : String) :
    ∀ (pre : List String) (s : String) (suf : List String) (nodes old : List FileNode),
      subforest nodes pre = some old →
      subforest ((recursiveUpdate c (pre ++ s :: suf) nodes).1) pre =
        some ((recursiveUpdate c (s :: suf) old).1) := by
  intro pre
  induction pre with
  | nil =>
    intro s suf nodes old h
    rw [subforest] at h
    injection h with he
    subst he
    rfl
  | cons q pre2 IH =>
    intro s suf nodes old h
    cases hf : nodes.find? (fun n => n.name == q && n.isFolder) with
    | none => rw [subforest_cons_none hf] at h; exact absurd h (by simp)
    | some node =>
      cases node with
      | file m d => rw [subforest_cons_file hf] at h; exact absurd h (by simp)
      | folder m ch =>
        rw [subforest_cons_folder hf] at h
        have hp := List.find?_some hf
        simp only [FileNode.name, FileNode.isFolder, Bool.and_eq_true, beq_iff_eq] at hp
        rw [List.cons_append, recursiveUpdate]
        have hfm : (updLevel c q (pre2 ++ s :: suf).isEmpty
            (recursiveUpdate c (pre2 ++ s :: suf)) nodes).1.find?
            (fun n => n.name == q && n.isFolder) =
            some (FileNode.folder m ((recursiveUpdate c (pre2 ++ s :: suf) ch).1)) := by
          rw [find?_updLevel c q (pre2 ++ s :: suf).isEmpty
            (recursiveUpdate c (pre2 ++ s :: suf)) (fun n => n.name == q && n.isFolder)
            (fun node => by simp only [updNode_fst_name, updNode_fst_isFolder]) nodes, hf]
          simp [updNode, hp.1]
        rw [subforest_cons_folder hfm]
        exact IH s suf ch old h

lemma updLevel_getElem_nomatch (c h : String) (last : Bool)
    (k : List FileNode → List FileNode × Option FileNode)
    (nodes : List FileNode) (j : Nat) (node : FileNode)
    (hj : nodes[j]? = some node) (hn : node.name ≠ h) :
    ((updLevel c h last k nodes).1)[j]? = some node := by
  have hb : (node.name == h) = false := beq_eq_false_iff_ne.mpr hn
  rw [updLevel_fst_map, List.getElem?_map, hj]
  simp [updNode_fst_nomatch c h last k node hb]

/-- C1 (amended with sibling-name uniqueness): when the path's segments are
nonempty, sibling names are unique throughout the tree and the path
resolves to a file, `updateFileByPath` produces a root in which lookup of
the path yields a file with exactly the new content, and at every level
along the path each sibling not named by the next segment is preserved —
same position, identical value. -/
theorem c1_update_then_lookup (T : List FileNode) (p c : String)
    (hseg : ∀ s ∈ jsSplit p, s ≠ "")
    (huniq : sibUnique T = true)
    (hres : resolvesToFile (jsSplit p) T = true) :
    findAndSelectFile (updateFileByPath T p c).1 p =
      some (FileNode.file ((jsSplit p).getLastD "") c)
    ∧ ∀ pre s suf, jsSplit p = pre ++ s :: suf →
        ∀ old, subforest T pre = some old →
          subforest (updateFileByPath T p c).1 pre =
            some ((recursiveUpdate c (s :: suf) old).1)
          ∧ ∀ (j : Nat) (node : FileNode), old[j]? = some node → node.name ≠ s →
              ((recursiveUpdate c (s :: suf) old).1)[j]? = some node := by
  have hfil : fparts p = jsSplit p := by
    unfold fparts
    exact List.filter_eq_self.mpr (fun a ha => by simpa using hseg a ha)
  constructor
  · have hdef : findAndSelectFile (updateFileByPath T p c).1 p =
        lookupGo ((fparts p).getLastD "") (some ((recursiveUpdate c (jsSplit p) T).1))
          (fparts p) := rfl
    rw [hdef, hfil]
    exact lookup_after_update c (jsSplit p) T ((jsSplit p).getLastD "") rfl huniq hres
  · intro pre s suf hsplit old hold
    constructor
    · have hdef : (updateFileByPath T p c).1 = (recursiveUpdate c (jsSplit p) T).1 := rfl
      rw [hdef, hsplit]
      exact subforest_update c pre s suf T old hold
    · intro j node hj hn
      rw [recursiveUpdate]
      exact updLevel_getElem_nomatch c s suf.isEmpty _ old j node hj hn

/-- C1 witness: updating `src/App.tsx` on the seed tree. -/
theorem c1_update_then_lookup_witness :
    (∀ s ∈ jsSplit "src/App.tsx", s ≠ "") ∧
    sibUnique INITIAL_FILE_STRUCTURE = true ∧
    resolvesToFile (jsSplit "src/App.tsx") INITIAL_FILE_STRUCTURE = true ∧
    findAndSelectFile
        (updateFileByPath INITIAL_FILE_STRUCTURE "src/App.tsx" "updated").1 "src/App.tsx" =
      some (FileNode.file ((jsSplit "src/App.tsx").getLastD "") "updated") := by
  have hjs : jsSplit "src/App.tsx" = ["src", "App.tsx"] := rfl
  have h1 : ∀ s ∈ jsSplit "src/App.tsx", s ≠ "" := by rw [hjs]; decide
  have h2 : sibUnique INITIAL_FILE_STRUCTURE = true := by
    simp [sibUnique, INITIAL_FILE_STRUCTURE]
  have h3 : resolvesToFile (jsSplit "src/App.tsx") INITIAL_FILE_STRUCTURE = true := by
    rw [hjs]
    simp [resolvesToFile, INITIAL_FILE_STRUCTURE]
  exact ⟨h1, h2, h3,
    (c1_update_then_lookup INITIAL_FILE_STRUCTURE "src/App.tsx" "updated" h1 h2 h3).1⟩

/-- C1 counterexample: with duplicate sibling names the claim fails as
stated — the path `x/x` resolves to a file (both by lookup and by the
update's own chain), the update rewrites the nested file to the new
content, yet lookup on the new root still returns the untouched top-level
file with the old content, because the interior file named like the last
segment is returned early. -/
theorem c1_counterexample :
    findAndSelectFile
        [FileNode.file "x" "old", FileNode.folder "x" [FileNode.file "x" "inner"]] "x/x" =
      some (FileNode.file "x" "old")
    ∧ updateFileByPath
        [FileNode.file "x" "old", FileNode.folder "x" [FileNode.file "x" "inner"]] "x/x" "new" =
      ([FileNode.file "x" "old", FileNode.folder "x" [FileNode.file "x" "new"]],
        some (FileNode.file "x" "new"))
    ∧ findAndSelectFile
        [FileNode.file "x" "old", FileNode.folder "x" [FileNode.file "x" "new"]] "x/x" =
      some (FileNode.file "x" "old") :=
  ⟨rfl, rfl, rfl⟩

lemma splitSlashChars_ne_nil : ∀ l : List Char, splitSlashChars l ≠ [] := by
  intro l
  induction l with
  | nil => simp [splitSlashChars]
  | cons c cs IH =>
    rw [splitSlashChars]
    cases h : splitSlashChars cs with
    | nil => exact absurd h IH
    | cons hd tl =>
      by_cases hc : c = '/' <;> simp [hc]

lemma splitSlashChars_append_slash : ∀ xs ys : List Char,
    splitSlashChars (xs ++ '/' :: ys) = splitSlashChars xs ++ splitSlashChars ys := by
  intro xs ys
  induction xs with
  | nil =>
    rw [List.nil_append, splitSlashChars]
    cases h : splitSlashChars ys with
    | nil => exact absurd h (splitSlashChars_ne_nil ys)
    | cons hd tl => simp [splitSlashChars, h]
  | cons x xs2 IH =>
    rw [List.cons_append, splitSlashChars, IH]
    cases h2 : splitSlashChars xs2 with
    | nil => exact absurd h2 (splitSlashChars_ne_nil xs2)
    | cons hd tl =>
      by_cases hx : x = '/' <;> simp [splitSlashChars, hx, h2]

lemma splitSlashChars_no_slash : ∀ l : List Char, (∀ c ∈ l, c ≠ '/') → splitSlashChars l = [l] := by
  intro l
  induction l with
  | nil => intro _; rfl
  | cons c cs IH =>
    intro h
    have hc : c ≠ '/' := h c (List.mem_cons_self _ _)
    rw [splitSlashChars, IH (fun d hd => h d (List.mem_cons_of_mem c hd))]
    simp [hc]

/-- The incremental path building of `findPath`, folded over a list of
segment names: the JavaScript `currentPath ? currentPath + "/" + name :
name` step. -/
def joinFrom (cur : String) (segs : List String) : String :=
  segs.foldl (fun c n => if c == "" then n else c ++ "/" ++ n) cur

lemma wfName_data {s : String} (h : wfName s = true) :
    s ≠ "" ∧ ∀ c ∈ s.data, c ≠ '/' := by
  unfold wfName at h
  simp only [Bool.and_eq_true, bne_iff_ne, ne_eq, List.all_eq_true] at h
  exact ⟨h.1, fun c hc => by simpa using h.2 c hc⟩

lemma string_ne_empty_of_data {s : String} (h : s.data ≠ []) : s ≠ "" := by
  intro he
  rw [he] at h
  exact h rfl

lemma joinFrom_data : ∀ (t : List String) (cur : String), cur ≠ "" →
    (joinFrom cur t).data = cur.data ++ (t.map (fun s => '/' :: s.data)).flatten := by
  intro t
  induction t with
  | nil => intro cur _; simp [joinFrom]
  | cons n t2 IH =>
    intro cur hcur
    have hstep : joinFrom cur (n :: t2) = joinFrom (cur ++ "/" ++ n) t2 := by
      unfold joinFrom
      rw [List.foldl_cons]
      have : (cur == "") = false := by simpa using hcur
      rw [this]
      simp
    have hne : (cur ++ "/" ++ n) ≠ "" := by
      apply string_ne_empty_of_data
      simp [String.data_append]
    rw [hstep, IH _ hne]
    simp [String.data_append]

lemma splitSlashChars_join : ∀ (t : List String) (xs : List Char),
    (∀ c ∈ xs, c ≠ '/') → (∀ s ∈ t, wfName s = true) →
    splitSlashChars (xs ++ (t.map (fun s => '/' :: s.data)).flatten) =
      xs :: t.map (fun s => s.data) := by
  intro t
  induction t with
  | nil =>
    intro xs hxs _
    simp [splitSlashChars_no_slash xs hxs]
  | cons m t2 IH =>
    intro xs hxs hwf
    have hm := wfName_data (hwf m (List.mem_cons_self _ _))
    have hrest : ∀ s ∈ t2, wfName s = true := fun s hs => hwf s (List.mem_cons_of_mem m hs)
    have hj : ((m :: t2).map (fun s => '/' :: s.data)).flatten =
        '/' :: (m.data ++ (t2.map (fun s => '/' :: s.data)).flatten) := by
      simp
    rw [hj, splitSlashChars_append_slash, splitSlashChars_no_slash xs hxs]
    rw [IH m.data hm.2 hrest]
    simp

lemma jsSplit_joinFrom (segs : List String) (hne : segs ≠ [])
    (hwf : ∀ s ∈ segs, wfName s = true) :
    jsSplit (joinFrom "" segs) = segs := by
  cases segs with
  | nil => exact absurd rfl hne
  | cons n t =>
    have hn := wfName_data (hwf n (List.mem_cons_self _ _))
    have ht : ∀ s ∈ t, wfName s = true := fun s hs => hwf s (List.mem_cons_of_mem n hs)
    have h1 : joinFrom "" (n :: t) = joinFrom n t := by
      unfold joinFrom
      rw [List.foldl_cons]
      simp
    have hdata : (joinFrom n t).data = n.data ++ (t.map (fun s => '/' :: s.data)).flatten :=
      joinFrom_data t n hn.1
    unfold jsSplit
    rw [h1, hdata, splitSlashChars_join t n.data hn.2 ht]
    simp only [List.map_cons, List.map_map]
    have hmk : (((fun l => String.mk l) ∘ fun s => s.data) : String → String) = id :=
      funext fun s => rfl
    rw [hmk, List.map_id]

lemma findPathSegs_nil (target : FileNode) : findPathSegs target [] = none := by
  rw [findPathSegs.eq_def]

lemma containsNode_nil (target : FileNode) : containsNode target [] = false := by
  rw [containsNode.eq_def]

lemma findPath_eq_segs (target : FileNode) :
    (nodes : List FileNode) → (cur : String) →
    findPath target nodes cur = (findPathSegs target nodes).map (fun segs => joinFrom cur segs)
  | [], cur => by
    rw [findPath.eq_def, findPathSegs_nil]
    rfl
  | node :: rest, cur => by
    cases node with
    | file nm c0 =>
      by_cases ht : FileNode.file nm c0 = target
      · rw [findPath, findPathSegs, if_pos ht, if_pos ht]
        rfl
      · rw [findPath, findPathSegs, if_neg ht, if_neg ht]
        exact findPath_eq_segs target rest cur
    | folder nm ch =>
      by_cases ht : FileNode.folder nm ch = target
      · rw [findPath, findPathSegs, if_pos ht, if_pos ht]
        rfl
      · have hrec := findPath_eq_segs target ch
          (if cur == "" then (FileNode.folder nm ch).name
           else cur ++ "/" ++ (FileNode.folder nm ch).name)
        rw [findPath, findPathSegs, if_neg ht, if_neg ht, hrec]
        cases hch : findPathSegs target ch with
        | none => exact findPath_eq_segs target rest cur
        | some r => rfl
termination_by nodes _ => sizeOf nodes

lemma findPathSegs_ne_nil (target : FileNode) :
    ∀ (nodes : List FileNode) (segs : List String),
      findPathSegs target nodes = some segs → segs ≠ [] := by
  intro nodes
  induction nodes with
  | nil => intro segs h; rw [findPathSegs_nil] at h; exact absurd h (by simp)
  | cons node rest IH =>
    intro segs h
    cases node with
    | file nm c0 =>
      rw [findPathSegs] at h
      by_cases ht : FileNode.file nm c0 = target
      · rw [if_pos ht] at h
        injection h with he
        rw [← he]
        simp
      · rw [if_neg ht] at h
        exact IH segs h
    | folder nm ch =>
      rw [findPathSegs] at h
      by_cases ht : FileNode.folder nm ch = target
      · rw [if_pos ht] at h
        injection h with he
        rw [← he]
        simp
      · rw [if_neg ht] at h
        split at h
        · injection h with he
          rw [← he]
          simp
        · exact IH segs h

lemma findPathSegs_wf (target : FileNode) :
    (nodes : List FileNode) → allWF nodes = true → ∀ segs,
      findPathSegs target nodes = some segs → ∀ s ∈ segs, wfName s = true
  | [], _ => by intro segs h; rw [findPathSegs_nil] at h; exact absurd h (by simp)
  | node :: rest, hwf => by
    intro segs h
    cases node with
    | file nm c0 =>
      rw [allWF] at hwf
      simp only [Bool.and_eq_true] at hwf
      rw [findPathSegs] at h
      by_cases ht : FileNode.file nm c0 = target
      · rw [if_pos ht] at h
        injection h with he
        subst he
        intro s hs
        simp only [List.mem_singleton] at hs
        subst hs
        simpa using hwf.1
      · rw [if_neg ht] at h
        exact findPathSegs_wf target rest hwf.2 segs h
    | folder nm ch =>
      rw [allWF] at hwf
      simp only [Bool.and_eq_true] at hwf
      rw [findPathSegs] at h
      by_cases ht : FileNode.folder nm ch = target
      · rw [if_pos ht] at h
        injection h with he
        subst he
        intro s hs
        simp only [List.mem_singleton] at hs
        subst hs
        simpa using hwf.1.1
      · rw [if_neg ht] at h
        split at h
        · rename_i r hch
          injection h with he
          subst he
          intro s hs
          rcases List.mem_cons.mp hs with hh | hh
          · subst hh
            simpa using hwf.1.1
          · exact findPathSegs_wf target ch hwf.1.2 r hch s hh
        · exact findPathSegs_wf target rest hwf.2 segs h
termination_by nodes _ => sizeOf nodes

lemma findPathSegs_head (target : FileNode) :
    ∀ (nodes : List FileNode) (q : String) (r : List String),
      findPathSegs target nodes = some (q :: r) → ∃ node ∈ nodes, node.name = q := by
  intro nodes
  induction nodes with
  | nil => intro q r h; rw [findPathSegs_nil] at h; exact absurd h (by simp)
  | cons node rest IH =>
    intro q r h
    cases node with
    | file nm c0 =>
      rw [findPathSegs] at h
      by_cases ht : FileNode.file nm c0 = target
      · rw [if_pos ht] at h
        injection h with he
        injection he with he1 he2
        exact ⟨FileNode.file nm c0, List.mem_cons_self _ _, he1⟩
      · rw [if_neg ht] at h
        obtain ⟨m, hm, hname⟩ := IH q r h
        exact ⟨m, List.mem_cons_of_mem _ hm, hname⟩
    | folder nm ch =>
      rw [findPathSegs] at h
      by_cases ht : FileNode.folder nm ch = target
      · rw [if_pos ht] at h
        injection h with he
        injection he with he1 he2
        exact ⟨FileNode.folder nm ch, List.mem_cons_self _ _, he1⟩
      · rw [if_neg ht] at h
        split at h
        · rename_i r2 hch
          injection h with he
          injection he with he1 he2
          exact ⟨FileNode.folder nm ch, List.mem_cons_self _ _, he1⟩
        · obtain ⟨m, hm, hname⟩ := IH q r h
          exact ⟨m, List.mem_cons_of_mem _ hm, hname⟩

lemma contains_findPathSegs (target : FileNode) :
    (nodes : List FileNode) → containsNode target nodes = true →
      (findPathSegs target nodes).isSome = true
  | [] => by intro h; rw [containsNode_nil] at h; exact absurd h (by simp)
  | node :: rest => by
    intro h
    cases node with
    | file nm c0 =>
      rw [containsNode] at h
      rw [findPathSegs]
      by_cases ht : FileNode.file nm c0 = target
      · rw [if_pos ht]
        rfl
      · rw [if_neg ht] at h
        rw [if_neg ht]
        simp at h
        exact contains_findPathSegs target rest h
    | folder nm ch =>
      rw [containsNode] at h
      rw [findPathSegs]
      by_cases ht : FileNode.folder nm ch = target
      · rw [if_pos ht]
        rfl
      · rw [if_neg ht] at h
        rw [if_neg ht]
        simp at h
        cases hch : findPathSegs target ch with
        | some r => rfl
        | none =>
          rcases h with hc | hr
          · have hcc := contains_findPathSegs target ch hc
            rw [hch] at hcc
            exact absurd hcc (by simp)
          · exact contains_findPathSegs target rest hr
termination_by nodes => sizeOf nodes

lemma lookup_findPathSegs (target : FileNode) (hfile : target.isFile = true) :
    (nodes : List FileNode) → sibUnique nodes = true → ∀ segs,
      findPathSegs target nodes = some segs →
      lookupGo (segs.getLastD "") (some nodes) segs = some target
  | [], _ => by intro segs h; rw [findPathSegs_nil] at h; exact absurd h (by simp)
  | node :: rest, hu => by
    intro segs h
    cases node with
    | file nm c0 =>
      obtain ⟨hnodup, hurest⟩ := sibUnique_cons_file hu
      rw [findPathSegs] at h
      by_cases ht : FileNode.file nm c0 = target
      · rw [if_pos ht] at h
        injection h with he
        subst he
        rw [lookupGo, List.find?_cons_of_pos _ (by simp)]
        simp [ht]
      · rw [if_neg ht] at h
        have IHr := lookup_findPathSegs target hfile rest hurest segs h
        cases segs with
        | nil => rw [lookupGo] at IHr; exact absurd IHr (by simp)
        | cons q r =>
          obtain ⟨mnode, hmem, hmname⟩ := findPathSegs_head target rest q r h
          have hqn : ¬ nm = q := by
            have hx := hnodup mnode hmem
            rw [hmname] at hx
            have hne : q ≠ nm := by simpa using hx
            exact hne.symm
          rw [lookupGo, List.find?_cons_of_neg _ (by simp [hqn])]
          rw [lookupGo] at IHr
          exact IHr
    | folder nm ch =>
      obtain ⟨hnodup, huch, hurest⟩ := sibUnique_cons_folder hu
      rw [findPathSegs] at h
      by_cases ht : FileNode.folder nm ch = target
      · exact absurd hfile (by rw [← ht]; simp)
      · rw [if_neg ht] at h
        split at h
        · rename_i r hch
          injection h with he
          subst he
          simp only [FileNode.name]
          rw [lookupGo, List.find?_cons_of_pos _ (by simp)]
          simp only [FileNode.isFile, Bool.false_and, Bool.false_eq_true, if_false,
            FileNode.childrenOpt]
          have hrne : r ≠ [] := findPathSegs_ne_nil target ch r hch
          have IHc := lookup_findPathSegs target hfile ch huch r hch
          cases r with
          | nil => exact absurd rfl hrne
          | cons r0 r2 =>
            rw [List.getLastD_cons, getLastD_indep r2 r0 nm ""]
            exact IHc
        · have IHr := lookup_findPathSegs target hfile rest hurest segs h
          cases segs with
          | nil => rw [lookupGo] at IHr; exact absurd IHr (by simp)
          | cons q r =>
            obtain ⟨mnode, hmem, hmname⟩ := findPathSegs_head target rest q r h
            have hqn : ¬ nm = q := by
              have hx := hnodup mnode hmem
              rw [hmname] at hx
              have hne : q ≠ nm := by simpa using hx
              exact hne.symm
            rw [lookupGo, List.find?_cons_of_neg _ (by simp [hqn])]
            rw [lookupGo] at IHr
            exact IHr
termination_by nodes _ => sizeOf nodes

/-- C2 (amended to file nodes, unique sibling names and well-formed node
names): for every file node reachable in the tree, `findPath` returns a
path and lookup of that path returns the very same node. -/
theorem c2_findPath_lookup_roundtrip (T : List FileNode) (target : FileNode)
    (hfile : target.isFile = true)
    (huniq : sibUnique T = true)
    (hwf : allWF T = true)
    (hreach : containsNode target T = true) :
    ∃ p, findPath target T "" = some p ∧ findAndSelectFile T p = some target := by
  have hsome := contains_findPathSegs target T hreach
  cases hsegs : findPathSegs target T with
  | none => rw [hsegs] at hsome; exact absurd hsome (by simp)
  | some segs =>
    have hne : segs ≠ [] := findPathSegs_ne_nil target T segs hsegs
    have hwfsegs : ∀ s ∈ segs, wfName s = true := findPathSegs_wf target T hwf segs hsegs
    refine ⟨joinFrom "" segs, ?_, ?_⟩
    · rw [findPath_eq_segs target T "", hsegs]
      rfl
    · have hjs : jsSplit (joinFrom "" segs) = segs := jsSplit_joinFrom segs hne hwfsegs
      have hfp : fparts (joinFrom "" segs) = segs := by
        unfold fparts
        rw [hjs]
        refine List.filter_eq_self.mpr (fun a ha => ?_)
        have := (wfName_data (hwfsegs a ha)).1
        simpa using this
      have hdef : findAndSelectFile T (joinFrom "" segs) =
          lookupGo ((fparts (joinFrom "" segs)).getLastD "") (some T)
            (fparts (joinFrom "" segs)) := rfl
      rw [hdef, hfp]
      exact lookup_findPathSegs target hfile T huniq segs hsegs

/-- C2 witness: the seed tree's `README.md` file round-trips. -/
theorem c2_findPath_lookup_roundtrip_witness :
    (FileNode.file "README.md" "# Project Nexus UI\n\nThis is the initial README for the project.").isFile = true ∧
    sibUnique INITIAL_FILE_STRUCTURE = true ∧
    allWF INITIAL_FILE_STRUCTURE = true ∧
    containsNode (FileNode.file "README.md" "# Project Nexus UI\n\nThis is the initial README for the project.")
      INITIAL_FILE_STRUCTURE = true ∧
    ∃ p, findPath (FileNode.file "README.md" "# Project Nexus UI\n\nThis is the initial README for the project.")
        INITIAL_FILE_STRUCTURE "" = some p ∧
      findAndSelectFile INITIAL_FILE_STRUCTURE p =
        some (FileNode.file "README.md" "# Project Nexus UI\n\nThis is the initial README for the project.") := by
  have h1 : (FileNode.file "README.md" "# Project Nexus UI\n\nThis is the initial README for the project.").isFile = true := rfl
  have h2 : sibUnique INITIAL_FILE_STRUCTURE = true := by
    simp [sibUnique, INITIAL_FILE_STRUCTURE]
  have h3 : allWF INITIAL_FILE_STRUCTURE = true := by
    simp [allWF, wfName, INITIAL_FILE_STRUCTURE]
  have h4 : containsNode (FileNode.file "README.md" "# Project Nexus UI\n\nThis is the initial README for the project.")
      INITIAL_FILE_STRUCTURE = true := by
    simp [containsNode, INITIAL_FILE_STRUCTURE]
  exact ⟨h1, h2, h3, h4, c2_findPath_lookup_roundtrip INITIAL_FILE_STRUCTURE _ h1 h2 h3 h4⟩

/-- C2 counterexample: the claim quantifies over every reachable node, but
a folder never round-trips — `findPath` reconstructs the folder's path,
while lookup of that path returns NotFound, not the folder. -/
theorem c2_counterexample :
    findPath (FileNode.folder "src" []) [FileNode.folder "src" []] "" = some "src" ∧
    findAndSelectFile [FileNode.folder "src" []] "src" = none := by
  constructor
  · rw [findPath]
    simp
  · rfl

lemma updLevel_cons_snd (c h : String) (last : Bool)
    (k : List FileNode → List FileNode × Option FileNode) (node : FileNode)
    (rest : List FileNode) :
    (updLevel c h last k (node :: rest)).2 =
      match (updLevel c h last k rest).2 with
      | some x => some x
      | none => (updNode c h last k node).2 := rfl

lemma jsSplit_wfName {nm : String} (h : wfName nm = true) : jsSplit nm = [nm] := by
  obtain ⟨hne, hns⟩ := wfName_data h
  unfold jsSplit
  rw [splitSlashChars_no_slash nm.data hns]
  rfl

lemma fparts_wfName {nm : String} (h : wfName nm = true) : fparts nm = [nm] := by
  obtain ⟨hne, _⟩ := wfName_data h
  unfold fparts
  rw [jsSplit_wfName h]
  simp [hne]

lemma resolve_single_found (c nm : String) :
    ∀ nodes : List FileNode, resolvesToFile [nm] nodes = true →
      (recursiveUpdate c [nm] nodes).2 = some (FileNode.file nm c) := by
  intro nodes
  induction nodes with
  | nil => intro h; rw [resolvesToFile] at h; exact absurd h (by simp)
  | cons node rest IH =>
    intro h
    rw [recursiveUpdate, updLevel_cons_snd]
    by_cases hrest : resolvesToFile [nm] rest = true
    · have h2 := IH hrest
      rw [recursiveUpdate] at h2
      rw [h2]
    · have hrf : resolvesToFile [nm] rest = false := by
        cases hx : resolvesToFile [nm] rest
        · rfl
        · exact absurd hx hrest
      have hr2 := noResolve_unchanged c [nm] rest hrf
      rw [recursiveUpdate] at hr2
      have hsnd : (updLevel c nm ([] : List String).isEmpty (recursiveUpdate c []) rest).2 =
          none := by
        rw [hr2]
      rw [hsnd]
      cases node with
      | folder n ch =>
        rw [resolvesToFile] at h
        exact absurd h hrest
      | file n c0 =>
        rw [resolvesToFile] at h
        simp only [Bool.or_eq_true] at h
        rcases h with hn | hx
        · have hne : n = nm := by simpa using hn
          subst hne
          simp [updNode]
        · exact absurd hx hrest

lemma putFile_hasNode_self (nm c : String) :
    ∀ nodes : List FileNode, hasNode [nm] (putFile nm c nodes) = true := by
  intro nodes
  induction nodes with
  | nil =>
    rw [putFile, hasNode]
    simp
  | cons node rest IH =>
    cases node with
    | file n c0 =>
      by_cases hn : (n == nm) = true
      · rw [putFile, if_pos hn, hasNode]
        simp [hn]
      · rw [putFile, if_neg hn, hasNode]
        simp [IH]
    | folder n ch =>
      rw [putFile, hasNode]
      simp [IH]

/-- C7: lookup and `findOrCreateFile` depend only on the filtered segment
list (so leading/trailing/doubled slashes are ignored by them), while
`updateFileByPath` does not filter: a path containing an empty segment
never matches in a tree with no empty-named node, and the update is a
no-op; a top-level bare filename (nonempty and slash-free, hence a single
segment) is a valid path for all three operations: lookup returns a
first-matched top-level file of that name, the update rewrites the content
of a resolving top-level file and reports it, and create reduces to the
top-level place-or-overwrite step, leaving a node of that name at the top
level. -/
theorem c7_empty_segment_handling :
    (∀ (nodes : List FileNode) (p1 p2 : String), fparts p1 = fparts p2 →
        findAndSelectFile nodes p1 = findAndSelectFile nodes p2)
    ∧ (∀ (nodes : List FileNode) (p1 p2 c : String), fparts p1 = fparts p2 →
        findOrCreateFile nodes p1 c = findOrCreateFile nodes p2 c)
    ∧ (∀ (nodes : List FileNode) (p c : String), "" ∈ jsSplit p → noEmptyNames nodes = true →
        updateFileByPath nodes p c = (nodes, none))
    ∧ (∀ (nodes : List FileNode) (nm c0 : String), wfName nm = true →
        nodes.find? (fun n => n.name == nm) = some (FileNode.file nm c0) →
        findAndSelectFile nodes nm = some (FileNode.file nm c0))
    ∧ (∀ (nodes : List FileNode) (nm c : String), wfName nm = true →
        resolvesToFile [nm] nodes = true →
        (updateFileByPath nodes nm c).2 = some (FileNode.file nm c))
    ∧ (∀ (nodes : List FileNode) (nm c : String), wfName nm = true →
        findOrCreateFile nodes nm c = putFile nm c nodes
        ∧ hasNode [nm] (findOrCreateFile nodes nm c) = true) := by
  refine ⟨?_, ?_, ?_, ?_, ?_, ?_⟩
  · intro nodes p1 p2 h
    unfold findAndSelectFile
    rw [h]
  · intro nodes p1 p2 c h
    unfold findOrCreateFile
    rw [h]
  · intro nodes p c hm hne
    exact noResolve_unchanged c _ nodes (emptySeg_noResolve _ nodes hm hne)
  · intro nodes nm c0 hw hfind
    have hdef : findAndSelectFile nodes nm =
        lookupGo ((fparts nm).getLastD "") (some nodes) (fparts nm) := rfl
    have hlast : ([nm] : List String).getLastD "" = nm := rfl
    rw [hdef, fparts_wfName hw, hlast, lookupGo, hfind]
    simp
  · intro nodes nm c hw hres
    have hdef : updateFileByPath nodes nm c = recursiveUpdate c (jsSplit nm) nodes := rfl
    rw [hdef, jsSplit_wfName hw]
    exact resolve_single_found c nm nodes hres
  · intro nodes nm c hw
    have heq : findOrCreateFile nodes nm c = putFile nm c nodes := by
      have hdef : findOrCreateFile nodes nm c =
          (match (fparts nm).getLast? with
            | none => nodes
            | some fn => createPath fn c (fparts nm).dropLast nodes) := rfl
      rw [hdef, fparts_wfName hw]
      rfl
    refine ⟨heq, ?_⟩
    rw [heq]
    exact putFile_hasNode_self nm c nodes

/-- C7 witness: slash-variant paths agree for lookup and for create; a
leading-slash path makes the update a no-op; and the bare filename `A` is
a valid path for all three operations on a one-file tree. -/
theorem c7_empty_segment_handling_witness :
    fparts "/src//App.tsx" = fparts "src/App.tsx" ∧
    findAndSelectFile INITIAL_FILE_STRUCTURE "/src//App.tsx" =
      findAndSelectFile INITIAL_FILE_STRUCTURE "src/App.tsx" ∧
    findOrCreateFile [FileNode.file "A" "x"] "/A" "y" =
      findOrCreateFile [FileNode.file "A" "x"] "A//" "y" ∧
    "" ∈ jsSplit "/A" ∧
    noEmptyNames [FileNode.file "A" "x"] = true ∧
    updateFileByPath [FileNode.file "A" "x"] "/A" "y" = ([FileNode.file "A" "x"], none) ∧
    wfName "A" = true ∧
    ([FileNode.file "A" "x"]).find? (fun n => n.name == "A") = some (FileNode.file "A" "x") ∧
    findAndSelectFile [FileNode.file "A" "x"] "A" = some (FileNode.file "A" "x") ∧
    resolvesToFile ["A"] [FileNode.file "A" "x"] = true ∧
    (updateFileByPath [FileNode.file "A" "x"] "A" "y").2 = some (FileNode.file "A" "y") ∧
    findOrCreateFile [FileNode.file "A" "x"] "A" "y" = putFile "A" "y" [FileNode.file "A" "x"] ∧
    hasNode ["A"] (findOrCreateFile [FileNode.file "A" "x"] "A" "y") = true := by
  have hres : resolvesToFile ["A"] [FileNode.file "A" "x"] = true := by
    simp [resolvesToFile]
  refine ⟨rfl,
    c7_empty_segment_handling.1 INITIAL_FILE_STRUCTURE "/src//App.tsx" "src/App.tsx" rfl,
    c7_empty_segment_handling.2.1 [FileNode.file "A" "x"] "/A" "A//" "y" rfl,
    by decide,
    by simp [noEmptyNames],
    c7_empty_segment_handling.2.2.1 [FileNode.file "A" "x"] "/A" "y" (by decide)
      (by simp [noEmptyNames]),
    by decide,
    rfl,
    c7_empty_segment_handling.2.2.2.1 [FileNode.file "A" "x"] "A" "x" (by decide) rfl,
    hres,
    c7_empty_segment_handling.2.2.2.2.1 [FileNode.file "A" "x"] "A" "y" (by decide) hres,
    (c7_empty_segment_handling.2.2.2.2.2 [FileNode.file "A" "x"] "A" "y" (by decide)).1,
    (c7_empty_segment_handling.2.2.2.2.2 [FileNode.file "A" "x"] "A" "y" (by decide)).2⟩

end Nexus
